import Mathlib

/-!
Verification of the OSC codec and transport correlator of the ablenode
repository (file src/osc.ts), as a shallow embedding.

Modelling conventions:
 - JS strings are modelled by their UTF-8 byte sequences (List Nat); all the
   string handling in the source (Buffer.indexOf, Buffer.subarray, Buffer.from
   with a trailing NUL) is byte-level, so this is the direct embedding.
 - JS numbers are modelled as rationals.  Number.isInteger corresponds to the
   denominator being 1.  Buffer.writeFloatBE converts to IEEE-754 binary32;
   the model covers the exactly representable values (the only ones the spec
   claims mention) and returns none elsewhere.  Infinity and NaN, which
   Buffer.readFloatBE can produce, get their own constructors.
 - Fallible operations (Buffer.writeInt32BE and the read methods throw on
   out-of-range input) return Option.
-/

namespace AbleNode

/-- A decoded OSC argument value, mirroring the TS union string | number | boolean
with the number case split into finite rationals, infinities and NaN. -/
inductive OSCArg where
  | num (q : ℚ)
  | inf (neg : Bool)
  | nan
  | str (s : List Nat)
  | bool (b : Bool)
deriving DecidableEq

/-- The OSCMessage interface of src/osc.ts: an address and an argument list. -/
structure OSCMessage where
  address : List Nat
  args : List OSCArg
deriving DecidableEq

/-- Advance a cursor to the next 4-byte boundary: the source idiom
pos += (4 - (pos % 4)) % 4. -/
def align4 (p : Nat) : Nat := p + (4 - p % 4) % 4

/-- oscString from src/osc.ts: append a NUL terminator, then zero-pad the
result to a multiple of 4 bytes. -/
def oscString (s : List Nat) : List Nat :=
  let str := s ++ [0]
  str ++ List.replicate ((4 - str.length % 4) % 4) 0

/-- Buffer.writeInt32BE payload: 4 big-endian bytes of the two-complement
representation.  The range check is done at the call site in buildArg. -/
def int32Bytes (n : ℤ) : List Nat :=
  let w := (n % 2 ^ 32).toNat
  [w / 2 ^ 24 % 256, w / 2 ^ 16 % 256, w / 2 ^ 8 % 256, w % 256]

/-- Big-endian bytes of a 32-bit word. -/
def word32Bytes (w : Nat) : List Nat :=
  [w / 2 ^ 24 % 256, w / 2 ^ 16 % 256, w / 2 ^ 8 % 256, w % 256]

/-- Assemble IEEE-754 binary32 fields (sign, biased exponent, mantissa) into
a 32-bit word. -/
def assembleBits (s E m : Nat) : Nat := s * 2 ^ 31 + E * 2 ^ 23 + m

/-- Structural (fuel-driven) base-2 logarithm, kernel-computable. -/
def log2Fuel : Nat → Nat → Nat
  | 0, _ => 0
  | fuel + 1, n => if n ≤ 1 then 0 else log2Fuel fuel (n / 2) + 1

/-- Base-2 logarithm with the fuel instantiated. -/
def natLog2 (n : Nat) : Nat := log2Fuel n n

/-- Exact IEEE-754 binary32 representation of a rational, as
(sign, biased exponent, mantissa) fields.  Buffer.writeFloatBE rounds a double
to binary32; the claims only involve exactly representable values, so a value
with no exact representation is modelled as none.  A finite nonzero value v is
representable iff n = |v| * 2 ^ 149 is an integer (the denominator of v
divides 2 ^ 149) that is either below 2 ^ 23 (subnormal) or of the form
p * 2 ^ k with 2 ^ 23 <= p < 2 ^ 24 and k + 1 < 255 (normal). -/
def float32Fields (q : ℚ) : Option (Nat × Nat × Nat) :=
  if q = 0 then some (0, 0, 0)
  else
    let s : Nat := if q < 0 then 1 else 0
    if q.den ∣ 2 ^ 149 then
      let n : Nat := q.num.natAbs * (2 ^ 149 / q.den)
      if n < 2 ^ 23 then some (s, 0, n)
      else
        let k := natLog2 n - 23
        if n % 2 ^ k = 0 then
          if k + 1 < 255 then some (s, k + 1, n / 2 ^ k - 2 ^ 23)
          else none
        else none
    else none

/-- One iteration of the argument loop of buildOSCMessage: the type-tag byte
and the payload bytes contributed by one argument; none where the source
throws (writeInt32BE out of int32 range) or the float has no exact binary32
representation (see float32Fields). -/
def buildArg : OSCArg → Option (Nat × List Nat)
  | .num q =>
    if q.den = 1 then
      if -2 ^ 31 ≤ q.num ∧ q.num < 2 ^ 31 then some (105, int32Bytes q.num) else none
    else
      (float32Fields q).map fun f => (102, word32Bytes (assembleBits f.1 f.2.1 f.2.2))
  | .inf neg => some (102, word32Bytes (assembleBits (if neg then 1 else 0) 255 0))
  | .nan => some (102, word32Bytes (assembleBits 0 255 (2 ^ 22)))
  | .str s => some (115, oscString s)
  | .bool b => some (if b then 84 else 70, [])

/-- buildOSCMessage from src/osc.ts: padded address, padded type-tag string
(a comma followed by one tag byte per argument), then the argument payloads
in order. -/
def buildOSCMessage (address : List Nat) (args : List OSCArg) : Option (List Nat) := do
  let pieces ← args.mapM buildArg
  let typeTag := 44 :: pieces.map Prod.fst
  return oscString address ++ oscString typeTag ++ (pieces.map Prod.snd).flatten

/-- Index of the first occurrence of a byte in a list, none if absent. -/
def byteIndexAux (b : Nat) : List Nat → Option Nat
  | [] => none
  | x :: xs => if x = b then some 0 else (byteIndexAux b xs).map (· + 1)

/-- Buffer.indexOf(value, byteOffset): absolute index of the first occurrence
at or after the offset, -1 when absent. -/
def jsIndexOf (data : List Nat) (b : Nat) (start : Nat) : ℤ :=
  match byteIndexAux b (data.drop start) with
  | some i => ((start + i : Nat) : ℤ)
  | none => -1

/-- Buffer.subarray(start, stop) with the JS clamping and negative-index
semantics (a negative bound counts from the end). -/
def jsSub (data : List Nat) (start stop : ℤ) : List Nat :=
  let len : ℤ := data.length
  let s := if start < 0 then max (len + start) 0 else min start len
  let e := if stop < 0 then max (len + stop) 0 else min stop len
  (data.take e.toNat).drop s.toNat

/-- A big-endian 32-bit read at an absolute position; none when fewer than 4
bytes remain (Buffer.readInt32BE and Buffer.readFloatBE throw there). -/
def read4 (data : List Nat) (pos : Nat) : Option Nat :=
  match data[pos]?, data[pos + 1]?, data[pos + 2]?, data[pos + 3]? with
  | some a, some b, some c, some d => some (a * 2 ^ 24 + b * 2 ^ 16 + c * 2 ^ 8 + d)
  | _, _, _, _ => none

/-- Buffer.readInt32BE value of a 32-bit word. -/
def int32OfWord (w : Nat) : ℤ :=
  if 2 ^ 31 ≤ w then (w : ℤ) - 2 ^ 32 else (w : ℤ)

/-- Buffer.readFloatBE: interpret a 32-bit word as an IEEE-754 binary32
value (finite rational, infinity or NaN). -/
def bitsToArg (w : Nat) : OSCArg :=
  let s : Nat := w / 2 ^ 31 % 2
  let E : Nat := w / 2 ^ 23 % 2 ^ 8
  let m : Nat := w % 2 ^ 23
  if E = 255 then if m = 0 then .inf (s = 1) else .nan
  else
    let mag : ℚ := if E = 0 then (m : ℚ) / 2 ^ 149 else ((2 ^ 23 + m : Nat) : ℚ) * 2 ^ (E - 1) / 2 ^ 149
    .num (if s = 1 then -mag else mag)

/-- The argument loop of parseOSCMessage: walk the tag bytes (the type-tag
string without its leading comma), consuming payload bytes from the absolute
cursor; none where a read throws.  A tag byte other than i, f, s, T, F is
skipped without consuming bytes, as in the source (no final else branch). -/
def parseArgsLoop (data : List Nat) : List Nat → Nat → Option (List OSCArg)
  | [], _ => some []
  | t :: rest, pos =>
    if t = 102 then
      match read4 data pos with
      | none => none
      | some w => (parseArgsLoop data rest (pos + 4)).map (bitsToArg w :: ·)
    else if t = 105 then
      match read4 data pos with
      | none => none
      | some w => (parseArgsLoop data rest (pos + 4)).map (OSCArg.num (int32OfWord w) :: ·)
    else if t = 115 then
      let nullIdx := jsIndexOf data 0 pos
      (parseArgsLoop data rest (align4 (nullIdx + 1).toNat)).map
        (OSCArg.str (jsSub data pos nullIdx) :: ·)
    else if t = 84 then (parseArgsLoop data rest pos).map (OSCArg.bool true :: ·)
    else if t = 70 then (parseArgsLoop data rest pos).map (OSCArg.bool false :: ·)
    else parseArgsLoop data rest pos

/-- parseOSCMessage from src/osc.ts: read the address up to the first NUL,
align, check for the comma that leads the type-tag string (returning an
empty argument list when absent), read the type tag, align, then run the
argument loop; none when a read throws mid-stream. -/
def parseOSCMessage (data : List Nat) : Option OSCMessage :=
  let nullIdx := jsIndexOf data 0 0
  let address := jsSub data 0 nullIdx
  let pos := align4 (nullIdx + 1).toNat
  if data[pos]? = some 44 then
    let nullIdx2 := jsIndexOf data 0 pos
    let typeTag := jsSub data pos nullIdx2
    let pos2 := align4 (nullIdx2 + 1).toNat
    (parseArgsLoop data (typeTag.drop 1) pos2).map fun as => ⟨address, as⟩
  else some ⟨address, []⟩

example : buildOSCMessage [47, 97] [] = some [47, 97, 0, 0, 44, 0, 0, 0] := by decide

example : parseOSCMessage [47, 97, 0, 0, 44, 0, 0, 0] = some ⟨[47, 97], []⟩ := by decide

example : buildOSCMessage [47, 97] [.num 4, .bool true] =
    some [47, 97, 0, 0, 44, 105, 84, 0, 0, 0, 0, 4] := by decide

example : parseOSCMessage [47, 97, 0, 0, 44, 105, 84, 0, 0, 0, 0, 4] =
    some ⟨[47, 97], [.num 4, .bool true]⟩ := by decide

/-!
The transport correlator (class OSCClient of src/osc.ts).

The client is single-threaded and event-driven; its observable state is the
socket (bound or not), the responseHandlers map from address to the pending
resolve/timer pair, and the streams of emitted events, sent datagrams and
settled promises.  A pending entry is identified by the id of the query that
created it (each query owns exactly one setTimeout timer, so the query id
doubles as the timer id).  The asynchronous behaviour is an interleaving of
atomic turns: query calls, inbound datagrams (the socket message handler),
timer callbacks, and close; runC folds such a turn sequence.
-/

/-- How a query promise was settled. -/
inductive QueryOutcome where
  | resolved (msg : OSCMessage)
  | timedOut
deriving DecidableEq

/-- Synchronous result of a send call. -/
inductive SendResult where
  | sent
  | notConnected
  | encodeFailed
deriving DecidableEq

/-- Synchronous result of a query call (the promise outcome comes later). -/
inductive QueryStart where
  | started (qid : Nat)
  | notConnected
  | encodeFailed
deriving DecidableEq

/-- Observable state of one OSCClient. -/
structure CorrState where
  /-- whether this.socket is non-null (bound). -/
  connected : Bool
  /-- responseHandlers: address mapped to the id of the query whose resolve
  and timer are stored there. -/
  pending : List (List Nat × Nat)
  /-- armed setTimeout timers: query id mapped to the address its callback
  captured.  clearTimeout removes an entry. -/
  timers : List (Nat × List Nat)
  /-- next fresh query id. -/
  nextId : Nat
  /-- settled query promises, most recent first. -/
  settled : List (Nat × QueryOutcome)
  /-- emitted message events, most recent first. -/
  events : List OSCMessage
  /-- number of emitted error events. -/
  errorEvents : Nat
  /-- datagrams handed to socket.send, most recent first. -/
  sent : List (List Nat)
deriving DecidableEq

/-- Association-list lookup (Map.get). -/
def alistGet {α β : Type} [DecidableEq α] (k : α) : List (α × β) → Option β
  | [] => none
  | (a, v) :: rest => if a = k then some v else alistGet k rest

/-- Association-list removal (Map.delete). -/
def alistDel {α β : Type} [DecidableEq α] (k : α) (l : List (α × β)) : List (α × β) :=
  l.filter fun p => decide (p.1 ≠ k)

/-- OSCClient.send: throw if the socket is null, otherwise encode (a throwing
encode propagates) and hand one datagram to socket.send. -/
def sendOp (st : CorrState) (address : List Nat) (args : List OSCArg) :
    CorrState × SendResult :=
  if st.connected then
    match buildOSCMessage address args with
    | none => (st, .encodeFailed)
    | some bs => ({ st with sent := bs :: st.sent }, .sent)
  else (st, .notConnected)

/-- OSCClient.query: throw if the socket is null; otherwise arm the timeout
timer, store the handler in responseHandlers (overwriting any entry at the
same address without cancelling its timer), then send.  A throw inside the
promise executor (encode failure in send) leaves the handler and timer
behind, as in the source. -/
def queryOp (st : CorrState) (address : List Nat) (args : List OSCArg) :
    CorrState × QueryStart :=
  if st.connected then
    let qid := st.nextId
    let st1 : CorrState := { st with
      nextId := qid + 1
      timers := (qid, address) :: st.timers
      pending := (address, qid) :: alistDel address st.pending }
    match buildOSCMessage address args with
    | none => (st1, .encodeFailed)
    | some bs => ({ st1 with sent := bs :: st1.sent }, .started qid)
  else (st, .notConnected)

/-- The socket message handler installed by OSCClient.connect: parse the
datagram (a throw is caught and emits an error event), always emit the
message event, then settle a pending handler whose key equals the decoded
address, cancelling its timer and removing it from the map. -/
def deliverOp (st : CorrState) (data : List Nat) : CorrState :=
  match parseOSCMessage data with
  | none => { st with errorEvents := st.errorEvents + 1 }
  | some msg =>
    let st1 := { st with events := msg :: st.events }
    match alistGet msg.address st1.pending with
    | some qid =>
      { st1 with
        timers := alistDel qid st1.timers
        pending := alistDel msg.address st1.pending
        settled := (qid, .resolved msg) :: st1.settled }
    | none => st1

/-- A timeout callback firing: only an armed (not cleared) timer can fire;
it deletes the responseHandlers entry at its captured address, whatever
query that entry currently belongs to, and rejects its own promise. -/
def fireOp (st : CorrState) (qid : Nat) : CorrState :=
  match alistGet qid st.timers with
  | none => st
  | some address =>
    { st with
      timers := alistDel qid st.timers
      pending := alistDel address st.pending
      settled := (qid, .timedOut) :: st.settled }

/-- OSCClient.close: release the socket and null it; responseHandlers and
the armed timers are left untouched. -/
def closeOp (st : CorrState) : CorrState := { st with connected := false }

/-- One scheduler turn of the client. -/
inductive CStep where
  | query (address : List Nat) (args : List OSCArg)
  | send (address : List Nat) (args : List OSCArg)
  | deliver (data : List Nat)
  | fire (qid : Nat)
  | close

/-- Apply one turn. -/
def stepC (st : CorrState) : CStep → CorrState
  | .query a as => (queryOp st a as).1
  | .send a as => (sendOp st a as).1
  | .deliver d => deliverOp st d
  | .fire q => fireOp st q
  | .close => closeOp st

/-- Run a turn sequence. -/
def runC (st : CorrState) (tr : List CStep) : CorrState := tr.foldl stepC st

/-- State of a client immediately after a successful connect. -/
def initC : CorrState := ⟨true, [], [], 0, [], [], 0, []⟩

/-- The fixed address /live/test that ping queries, as UTF-8 bytes. -/
def pingAddress : List Nat := [47, 108, 105, 118, 101, 47, 116, 101, 115, 116]

/-- The success marker string ok, as UTF-8 bytes. -/
def okBytes : List Nat := [111, 107]

/-- The query issued by OSCClient.ping. -/
def pingQuery (st : CorrState) : CorrState × QueryStart := queryOp st pingAddress []

/-- The boolean OSCClient.ping computes from the fate of its query:
response.args[0] === "ok" on a resolved reply, false when the query threw
synchronously (none) or was rejected by its timeout (the catch branch). -/
def pingDecision : Option QueryOutcome → Bool
  | some (.resolved msg) =>
    match msg.args.head? with
    | some (.str s) => s == okBytes
    | _ => false
  | some .timedOut => false
  | none => false

example : pingDecision (some (.resolved ⟨pingAddress, [.str okBytes]⟩)) = true := by decide

example : pingDecision (some (.resolved ⟨pingAddress, [.str [110, 111]]⟩)) = false := by decide

example : pingDecision (some .timedOut) = false := by decide

example :
    runC initC [.query [47, 120] [], .query [47, 120] [], .fire 0] =
      ⟨true, [], [(1, [47, 120])], 2, [(0, .timedOut)], [], 0,
        [[47, 120, 0, 0, 44, 0, 0, 0], [47, 120, 0, 0, 44, 0, 0, 0]]⟩ := by decide

/-- Ids of the settled query promises, in settlement order. -/
def settledIds (st : CorrState) : List Nat := st.settled.map Prod.fst

/-- Structural invariant of the correlator state, maintained by every turn:
every pending entry has its armed timer with the same captured address, timer
ids and pending addresses are unique, no settled query still owns a timer,
and all ids are below the fresh-id counter. -/
def CorrInv (st : CorrState) : Prop :=
  (∀ p ∈ st.pending, (p.2, p.1) ∈ st.timers) ∧
  (st.timers.map Prod.fst).Nodup ∧
  (st.pending.map Prod.fst).Nodup ∧
  (settledIds st).Nodup ∧
  (∀ q ∈ settledIds st, ∀ a, (q, a) ∉ st.timers) ∧
  (∀ t ∈ st.timers, t.1 < st.nextId) ∧
  (∀ q ∈ settledIds st, q < st.nextId)

/-- Validity domain of the round-trip claim: integral numeric arguments lie in
int32 range, non-integral ones are exactly binary32-representable, strings
carry no NUL byte; infinities and NaN are outside the domain. -/
def validArg : OSCArg → Prop
  | .num q => (q.den = 1 ∧ -2 ^ 31 ≤ q.num ∧ q.num < 2 ^ 31) ∨ (q.den ≠ 1 ∧ (float32Fields q).isSome)
  | .str s => 0 ∉ s
  | .bool _ => True
  | .inf _ => False
  | .nan => False

instance validArgDecidable (a : OSCArg) : Decidable (validArg a) := by
  cases a <;> unfold validArg <;> infer_instance

/-! Helper lemmas about the byte-level primitives. -/

theorem align4_mod (n : Nat) : align4 n % 4 = 0 := by
  unfold align4; omega

theorem align4_add_left {p : Nat} (n : Nat) (h : p % 4 = 0) :
    align4 (p + n) = p + align4 n := by
  unfold align4; omega

theorem oscString_eq (s : List Nat) :
    oscString s = s ++ 0 :: List.replicate ((4 - (s.length + 1) % 4) % 4) 0 := by
  simp [oscString, List.append_assoc]

theorem oscString_length (s : List Nat) : (oscString s).length = align4 (s.length + 1) := by
  simp [oscString, align4]; omega

theorem oscString_mod (s : List Nat) : (oscString s).length % 4 = 0 := by
  rw [oscString_length]; exact align4_mod _

theorem byteIndexAux_append {b : Nat} {l₁ : List Nat} (h : b ∉ l₁) (l₂ : List Nat) :
    byteIndexAux b (l₁ ++ b :: l₂) = some l₁.length := by
  induction l₁ with
  | nil => simp [byteIndexAux]
  | cons x xs ih =>
    have hx : ¬x = b := fun hh => h (hh ▸ List.mem_cons_self x xs)
    simp [byteIndexAux, hx, ih fun hm => h (List.mem_cons_of_mem x hm)]

theorem jsIndexOf_pre {b : Nat} {mid : List Nat} (pre : List Nat) (h : b ∉ mid)
    (l₂ : List Nat) :
    jsIndexOf (pre ++ (mid ++ b :: l₂)) b pre.length = ((pre.length + mid.length : Nat) : ℤ) := by
  unfold jsIndexOf
  rw [List.drop_left, byteIndexAux_append h]

theorem jsSub_pre (pre mid rest : List Nat) :
    jsSub (pre ++ (mid ++ rest)) (pre.length : ℤ) ((pre.length + mid.length : Nat) : ℤ) = mid := by
  have hlen : (pre ++ (mid ++ rest)).length = pre.length + mid.length + rest.length := by
    simp [List.length_append]; omega
  simp only [jsSub, hlen]
  rw [if_neg (by omega), if_neg (by push_cast; omega)]
  rw [min_eq_left (by push_cast; omega), min_eq_left (by push_cast; omega)]
  have h1 : ((pre.length : ℤ)).toNat = pre.length := by omega
  have h2 : (((pre.length + mid.length : Nat) : ℤ)).toNat = pre.length + mid.length := by omega
  rw [h1, h2, show pre ++ (mid ++ rest) = (pre ++ mid) ++ rest from (List.append_assoc _ _ _).symm]
  have ht : ((pre ++ mid) ++ rest).take (pre.length + mid.length) = pre ++ mid := by
    have := List.take_left (pre ++ mid) rest
    simpa [List.length_append] using this
  rw [ht]
  exact List.drop_left pre mid

theorem getElem_pre (pre l : List Nat) (i : Nat) : (pre ++ l)[pre.length + i]? = l[i]? := by
  rw [List.getElem?_append_right (by omega)]; congr 1; omega

theorem read4_pre (pre : List Nat) (a b c d : Nat) (rest : List Nat) :
    read4 (pre ++ (a :: b :: c :: d :: rest)) pre.length =
      some (a * 2 ^ 24 + b * 2 ^ 16 + c * 2 ^ 8 + d) := by
  unfold read4
  have h0 : (pre ++ (a :: b :: c :: d :: rest))[pre.length]? = some a := by
    have := getElem_pre pre (a :: b :: c :: d :: rest) 0
    simpa using this
  have h1 : (pre ++ (a :: b :: c :: d :: rest))[pre.length + 1]? = some b := by
    have := getElem_pre pre (a :: b :: c :: d :: rest) 1
    simpa using this
  have h2 : (pre ++ (a :: b :: c :: d :: rest))[pre.length + 2]? = some c := by
    have := getElem_pre pre (a :: b :: c :: d :: rest) 2
    simpa using this
  have h3 : (pre ++ (a :: b :: c :: d :: rest))[pre.length + 3]? = some d := by
    have := getElem_pre pre (a :: b :: c :: d :: rest) 3
    simpa using this
  rw [h0, h1, h2, h3]

theorem read4_word32 {w : Nat} (pre rest : List Nat) (h : w < 2 ^ 32) :
    read4 (pre ++ (word32Bytes w ++ rest)) pre.length = some w := by
  show read4 (pre ++ (_ :: _ :: _ :: _ :: rest)) pre.length = some w
  rw [read4_pre]
  congr 1
  omega

theorem read4_int32 (pre rest : List Nat) (n : ℤ) :
    read4 (pre ++ (int32Bytes n ++ rest)) pre.length = some ((n % 2 ^ 32).toNat) := by
  show read4 (pre ++ (_ :: _ :: _ :: _ :: rest)) pre.length = some _
  rw [read4_pre]
  congr 1
  have : (n % 2 ^ 32).toNat < 2 ^ 32 := by omega
  omega

theorem int32OfWord_round (n : ℤ) (h1 : -2 ^ 31 ≤ n) (h2 : n < 2 ^ 31) :
    int32OfWord ((n % 2 ^ 32).toNat) = n := by
  unfold int32OfWord; split <;> omega

theorem int32Bytes_length (n : ℤ) : (int32Bytes n).length = 4 := rfl

theorem word32Bytes_length (w : Nat) : (word32Bytes w).length = 4 := rfl

theorem assemble_fields {s E m : Nat} (hs : s < 2) (hE : E < 256) (hm : m < 2 ^ 23) :
    assembleBits s E m / 2 ^ 31 % 2 = s ∧ assembleBits s E m / 2 ^ 23 % 2 ^ 8 = E ∧
      assembleBits s E m % 2 ^ 23 = m := by
  unfold assembleBits
  refine ⟨?_, ?_, ?_⟩ <;> omega

theorem float32FieldsSign (q : ℚ) (s : Nat) (mag : ℚ) (hs : (if q < 0 then 1 else 0) = s)
    (hmag : mag = |q|) : OSCArg.num (if s = 1 then -mag else mag) = .num q := by
  by_cases hq : q < 0
  · rw [← hs, if_pos hq, if_pos rfl, hmag, abs_of_neg hq, neg_neg]
  · rw [← hs, if_neg hq, if_neg (by norm_num), hmag, abs_of_nonneg (le_of_not_lt hq)]

theorem log2Fuel_spec (fuel : Nat) : ∀ n, n ≠ 0 → n ≤ fuel →
    2 ^ log2Fuel fuel n ≤ n ∧ n < 2 ^ (log2Fuel fuel n + 1) := by
  induction fuel with
  | zero => intro n h0 hle; omega
  | succ fuel ih =>
    intro n h0 hle
    by_cases h1 : n ≤ 1
    · have hn1 : n = 1 := by omega
      subst hn1
      constructor <;> simp [log2Fuel]
    · have hrec := ih (n / 2) (by omega) (by omega)
      rw [show log2Fuel (fuel + 1) n = log2Fuel fuel (n / 2) + 1 from by simp [log2Fuel, h1]]
      constructor
      · rw [show (2 : Nat) ^ (log2Fuel fuel (n / 2) + 1) = 2 * 2 ^ log2Fuel fuel (n / 2) by ring]
        omega
      · rw [show (2 : Nat) ^ (log2Fuel fuel (n / 2) + 1 + 1) =
          2 * 2 ^ (log2Fuel fuel (n / 2) + 1) by ring]
        omega

theorem natLog2_spec (n : Nat) (h : n ≠ 0) :
    2 ^ natLog2 n ≤ n ∧ n < 2 ^ (natLog2 n + 1) := log2Fuel_spec n n h le_rfl

theorem float32Fields_bits (q : ℚ) (s E m : Nat)
    (h : float32Fields q = some (s, E, m)) :
    s < 2 ∧ E < 255 ∧ m < 2 ^ 23 ∧ bitsToArg (assembleBits s E m) = .num q := by
  simp only [float32Fields] at h
  by_cases h0 : q = 0
  · rw [if_pos h0] at h
    obtain ⟨rfl, rfl, rfl⟩ : 0 = s ∧ 0 = E ∧ 0 = m := by
      simpa [Prod.ext_iff, eq_comm] using h
    refine ⟨by norm_num, by norm_num, by norm_num, ?_⟩
    simp [bitsToArg, assembleBits, h0]
  rw [if_neg h0] at h
  by_cases h1 : q.den ∣ 2 ^ 149
  swap
  · rw [if_neg h1] at h; cases h
  rw [if_pos h1] at h
  set n : Nat := q.num.natAbs * (2 ^ 149 / q.den) with hn
  have hden0 : (q.den : ℚ) ≠ 0 := by
    have := q.den_nz
    exact_mod_cast this
  have habs : |q| = |(q.num : ℚ)| / (q.den : ℚ) := by
    conv_lhs => rw [← Rat.num_div_den q]
    rw [abs_div, abs_of_nonneg (show (0 : ℚ) ≤ (q.den : ℚ) by positivity)]
  have hcastdiv : ((2 ^ 149 / q.den : Nat) : ℚ) = (2 ^ 149 : ℚ) / (q.den : ℚ) := by
    rw [Nat.cast_div h1 hden0]
    push_cast
    ring
  have hnabs : ((q.num.natAbs : Nat) : ℚ) = |(q.num : ℚ)| := by
    rw [Int.cast_natAbs, Int.cast_abs]
  have hval : ((n : Nat) : ℚ) = |q| * 2 ^ 149 := by
    rw [hn, Nat.cast_mul, hnabs, hcastdiv, habs]
    field_simp
  have hq0 : q.num ≠ 0 := Rat.num_ne_zero.mpr h0
  have hn0 : n ≠ 0 := by
    rw [hn]
    have hd1 : 0 < 2 ^ 149 / q.den := Nat.div_pos (Nat.le_of_dvd (by positivity) h1) q.pos
    have hd2 : 0 < q.num.natAbs := Int.natAbs_pos.mpr hq0
    positivity
  by_cases h2 : n < 2 ^ 23
  · -- subnormal
    rw [if_pos h2] at h
    obtain ⟨hs, hE, hm⟩ : (if q < 0 then 1 else 0) = s ∧ 0 = E ∧ n = m := by
      simpa [Prod.ext_iff] using h
    have hslt : s < 2 := by rw [← hs]; split <;> norm_num
    have hElt : E < 255 := by omega
    have hmlt : m < 2 ^ 23 := by omega
    refine ⟨hslt, hElt, hmlt, ?_⟩
    obtain ⟨f1, f2, f3⟩ := @assemble_fields s E m hslt (by omega) hmlt
    unfold bitsToArg
    rw [f1, f2, f3, if_neg (by omega), if_pos (by omega)]
    refine float32FieldsSign q s _ hs ?_
    rw [div_eq_iff (by positivity)]
    rw [← hm]
    exact hval
  · -- normal
    rw [if_neg h2] at h
    by_cases h3 : n % 2 ^ (natLog2 n - 23) = 0
    swap
    · rw [if_neg h3] at h; cases h
    rw [if_pos h3] at h
    by_cases h4 : natLog2 n - 23 + 1 < 255
    swap
    · rw [if_neg h4] at h; cases h
    rw [if_pos h4] at h
    set k : Nat := natLog2 n - 23 with hk
    obtain ⟨hs, hE, hm⟩ :
        (if q < 0 then 1 else 0) = s ∧ k + 1 = E ∧ n / 2 ^ k - 2 ^ 23 = m := by
      simpa [Prod.ext_iff] using h
    have hnge : 2 ^ 23 ≤ n := by omega
    obtain ⟨hself, hlt⟩ := natLog2_spec n hn0
    have hlog_ge : 23 ≤ natLog2 n := by
      by_contra hc
      have hup : n < 2 ^ 23 :=
        lt_of_lt_of_le hlt (Nat.pow_le_pow_right (by norm_num) (by omega))
      omega
    have hkeq : k + 23 = natLog2 n := by omega
    have hdvd : 2 ^ k ∣ n := Nat.dvd_of_mod_eq_zero h3
    have hquot_mul : n / 2 ^ k * 2 ^ k = n := Nat.div_mul_cancel hdvd
    have hq_ge : 2 ^ 23 ≤ n / 2 ^ k := by
      by_contra hc
      have hmul : n / 2 ^ k * 2 ^ k < 2 ^ 23 * 2 ^ k :=
        mul_lt_mul_of_pos_right (by omega) (by positivity)
      rw [hquot_mul, ← pow_add] at hmul
      have h23k : 23 + k = natLog2 n := by omega
      rw [h23k] at hmul
      omega
    have hq_lt : n / 2 ^ k < 2 ^ 24 := by
      by_contra hc
      have hmul : 2 ^ 24 * 2 ^ k ≤ n / 2 ^ k * 2 ^ k :=
        mul_le_mul_right' (by omega) (2 ^ k)
      rw [hquot_mul, ← pow_add] at hmul
      have h24k : 24 + k = natLog2 n + 1 := by omega
      rw [h24k] at hmul
      omega
    have hslt : s < 2 := by rw [← hs]; split <;> norm_num
    have hElt : E < 255 := by omega
    have hmlt : m < 2 ^ 23 := by omega
    refine ⟨hslt, hElt, hmlt, ?_⟩
    obtain ⟨f1, f2, f3⟩ := @assemble_fields s E m hslt (by omega) hmlt
    unfold bitsToArg
    rw [f1, f2, f3, if_neg (by omega), if_neg (by omega)]
    refine float32FieldsSign q s _ hs ?_
    have hsum : 2 ^ 23 + m = n / 2 ^ k := by omega
    have hE1 : E - 1 = k := by omega
    rw [hsum, hE1, div_eq_iff (by positivity)]
    have hcast : ((n / 2 ^ k : Nat) : ℚ) * ((2 ^ k : Nat) : ℚ) = ((n : Nat) : ℚ) := by
      rw [← Nat.cast_mul, hquot_mul]
    push_cast at hcast ⊢
    rw [hcast]
    exact_mod_cast hval

/-! Facts about buildArg and mapM buildArg. -/

theorem buildArg_piece {a : OSCArg} {p : Nat × List Nat} (h : buildArg a = some p) :
    p.1 ≠ 0 ∧ p.2.length % 4 = 0 := by
  cases a with
  | num q =>
    by_cases hden : q.den = 1
    · by_cases hr : -2 ^ 31 ≤ q.num ∧ q.num < 2 ^ 31
      · simp only [buildArg, if_pos hden, if_pos hr, Option.some.injEq] at h
        rw [← h]
        exact ⟨by norm_num, by simp [int32Bytes]⟩
      · simp only [buildArg, if_pos hden, if_neg hr] at h; cases h
    · cases hf : float32Fields q with
      | none => simp only [buildArg, if_neg hden, hf, Option.map_none'] at h; cases h
      | some f =>
        simp only [buildArg, if_neg hden, hf, Option.map_some', Option.some.injEq] at h
        rw [← h]
        exact ⟨by norm_num, by simp [word32Bytes]⟩
  | inf n =>
    simp only [buildArg, Option.some.injEq] at h
    rw [← h]
    exact ⟨by norm_num, by simp [word32Bytes]⟩
  | nan =>
    simp only [buildArg, Option.some.injEq] at h
    rw [← h]
    exact ⟨by norm_num, by simp [word32Bytes]⟩
  | str s =>
    simp only [buildArg, Option.some.injEq] at h
    rw [← h]
    exact ⟨by norm_num, oscString_mod s⟩
  | bool b =>
    simp only [buildArg, Option.some.injEq] at h
    rw [← h]
    refine ⟨?_, by simp⟩
    cases b <;> norm_num

theorem mapM_buildArg_of_valid (args : List OSCArg) (hv : ∀ a ∈ args, validArg a) :
    ∃ pieces, args.mapM buildArg = some pieces := by
  induction args with
  | nil => exact ⟨[], rfl⟩
  | cons a args ih =>
    obtain ⟨ps, hps⟩ := ih fun x hx => hv x (List.mem_cons_of_mem a hx)
    have hva := hv a (List.mem_cons_self a args)
    have hex : ∃ p, buildArg a = some p := by
      cases a with
      | num q =>
        rcases hva with ⟨hden, hlo, hhi⟩ | ⟨hden, hrep⟩
        · have hr : -2 ^ 31 ≤ q.num ∧ q.num < 2 ^ 31 := ⟨hlo, hhi⟩
          refine ⟨(105, int32Bytes q.num), ?_⟩
          simp only [buildArg, if_pos hden, if_pos hr]
        · obtain ⟨f, hf⟩ := Option.isSome_iff_exists.mp hrep
          refine ⟨(102, word32Bytes (assembleBits f.1 f.2.1 f.2.2)), ?_⟩
          simp only [buildArg, if_neg hden, hf, Option.map_some']
      | str s => exact ⟨_, rfl⟩
      | bool b => exact ⟨_, rfl⟩
      | inf n => exact hva.elim
      | nan => exact hva.elim
    obtain ⟨p, hp⟩ := hex
    refine ⟨p :: ps, ?_⟩
    rw [List.mapM_cons, hp, hps]; rfl

theorem mapM_pieces_facts {args : List OSCArg} {pieces : List (Nat × List Nat)}
    (h : args.mapM buildArg = some pieces) :
    ∀ p ∈ pieces, p.1 ≠ 0 ∧ p.2.length % 4 = 0 := by
  induction args generalizing pieces with
  | nil =>
    simp only [List.mapM_nil] at h
    cases h; intro p hp; cases hp
  | cons a args ih =>
    rw [List.mapM_cons] at h
    cases hba : buildArg a with
    | none => rw [hba] at h; cases h
    | some p0 =>
      rw [hba] at h
      cases hm : args.mapM buildArg with
      | none => rw [hm] at h; cases h
      | some ps =>
        rw [hm] at h
        have hpieces : pieces = p0 :: ps := by
          have : some (p0 :: ps) = some pieces := h
          exact (Option.some.inj this).symm
        subst hpieces
        intro p hp
        rcases List.mem_cons.mp hp with rfl | hp2
        · exact buildArg_piece hba
        · exact ih hm p hp2

theorem buildOSCMessage_eq {args : List OSCArg} {pieces : List (Nat × List Nat)}
    (address : List Nat) (hp : args.mapM buildArg = some pieces) :
    buildOSCMessage address args =
      some (oscString address ++ oscString (44 :: pieces.map Prod.fst) ++
        (pieces.map Prod.snd).flatten) := by
  unfold buildOSCMessage
  rw [hp]
  rfl

/-- The heart of the round-trip proof: running the decode loop over the
payload region yields back the encoded arguments, for any 4-aligned prefix. -/
theorem parseArgs_of_append (args : List OSCArg) :
    ∀ pieces : List (Nat × List Nat), args.mapM buildArg = some pieces →
      (∀ a ∈ args, validArg a) → ∀ pre : List Nat, pre.length % 4 = 0 →
        parseArgsLoop (pre ++ (pieces.map Prod.snd).flatten) (pieces.map Prod.fst) pre.length =
          some args := by
  induction args with
  | nil =>
    intro pieces hp _ pre _
    simp only [List.mapM_nil] at hp
    cases hp
    simp [parseArgsLoop]
  | cons a args ih =>
    intro pieces hp hv pre hpre
    have hva := hv a (List.mem_cons_self a args)
    have hvrest : ∀ x ∈ args, validArg x := fun x hx => hv x (List.mem_cons_of_mem a hx)
    rw [List.mapM_cons] at hp
    cases hba : buildArg a with
    | none => rw [hba] at hp; cases hp
    | some p =>
      rw [hba] at hp
      cases hm : args.mapM buildArg with
      | none => rw [hm] at hp; cases hp
      | some ps =>
        rw [hm] at hp
        have hpieces : pieces = p :: ps := (Option.some.inj hp).symm
        subst hpieces
        simp only [List.map_cons, List.flatten_cons]
        cases a with
        | num q =>
          rcases hva with ⟨hden, hlo, hhi⟩ | ⟨hden, hrep⟩
          · -- integral, tag i
            have hr : -2 ^ 31 ≤ q.num ∧ q.num < 2 ^ 31 := ⟨hlo, hhi⟩
            have hbuild : buildArg (OSCArg.num q) = some (105, int32Bytes q.num) := by
              simp only [buildArg, if_pos hden, if_pos hr]
            rw [hbuild] at hba
            have hpi : p = (105, int32Bytes q.num) := (Option.some.inj hba).symm
            subst hpi
            rw [parseArgsLoop]
            rw [if_neg (by norm_num), if_pos rfl]
            rw [read4_int32 pre ((ps.map Prod.snd).flatten) q.num]
            have ihh := ih ps hm hvrest (pre ++ int32Bytes q.num)
              (by rw [List.length_append, int32Bytes_length]; omega)
            rw [List.append_assoc, List.length_append, int32Bytes_length] at ihh
            rw [ihh]
            simp only [Option.map_some', Option.some.injEq, List.cons.injEq]
            exact ⟨by rw [int32OfWord_round q.num hlo hhi, Rat.coe_int_num_of_den_eq_one hden],
              trivial⟩
          · -- non-integral, tag f
            obtain ⟨⟨s, E, m⟩, hf⟩ := Option.isSome_iff_exists.mp hrep
            have hbuild : buildArg (OSCArg.num q) = some (102, word32Bytes (assembleBits s E m)) := by
              simp only [buildArg, if_neg hden, hf, Option.map_some']
            rw [hbuild] at hba
            have hpi : p = (102, word32Bytes (assembleBits s E m)) := (Option.some.inj hba).symm
            subst hpi
            obtain ⟨hs, hE, hmm, hbits⟩ := float32Fields_bits q s E m hf
            have hw : assembleBits s E m < 2 ^ 32 := by unfold assembleBits; omega
            rw [parseArgsLoop]
            rw [if_pos rfl]
            rw [read4_word32 pre ((ps.map Prod.snd).flatten) hw]
            have ihh := ih ps hm hvrest (pre ++ word32Bytes (assembleBits s E m))
              (by rw [List.length_append, word32Bytes_length]; omega)
            rw [List.append_assoc, List.length_append, word32Bytes_length] at ihh
            rw [ihh]
            simp only [Option.map_some', Option.some.injEq, List.cons.injEq]
            exact ⟨hbits, trivial⟩
        | inf n => exact hva.elim
        | nan => exact hva.elim
        | str s =>
          have hbuild : buildArg (OSCArg.str s) = some (115, oscString s) := rfl
          rw [hbuild] at hba
          have hpi : p = (115, oscString s) := (Option.some.inj hba).symm
          subst hpi
          have hshape : pre ++ (oscString s ++ (ps.map Prod.snd).flatten) =
              pre ++ (s ++ 0 :: (List.replicate ((4 - (s.length + 1) % 4) % 4) 0 ++
                (ps.map Prod.snd).flatten)) := by
            rw [oscString_eq]
            simp [List.append_assoc]
          simp only [parseArgsLoop]
          rw [if_pos trivial]
          rw [hshape]
          rw [jsIndexOf_pre pre hva _]
          have htn : ((((pre.length + s.length : Nat) : ℤ)) + 1).toNat = pre.length + s.length + 1 := by
            omega
          rw [htn]
          have hal : align4 (pre.length + s.length + 1) = pre.length + (oscString s).length := by
            rw [oscString_length]
            rw [show pre.length + s.length + 1 = pre.length + (s.length + 1) by omega]
            exact align4_add_left (s.length + 1) hpre
          rw [hal]
          have ihh := ih ps hm hvrest (pre ++ oscString s)
            (by rw [List.length_append]; have := oscString_mod s; omega)
          rw [List.append_assoc, List.length_append] at ihh
          rw [hshape] at ihh
          rw [ihh]
          rw [jsSub_pre pre s (0 :: (List.replicate ((4 - (s.length + 1) % 4) % 4) 0 ++
            (ps.map Prod.snd).flatten))]
          simp
        | bool b =>
          have ihh := ih ps hm hvrest pre hpre
          cases b
          · have hbuild : buildArg (OSCArg.bool false) = some (70, []) := rfl
            rw [hbuild] at hba
            have hpi : p = (70, []) := (Option.some.inj hba).symm
            subst hpi
            simp only [parseArgsLoop]
            rw [if_pos trivial]
            simp only [List.nil_append]
            rw [ihh]
            rfl
          · have hbuild : buildArg (OSCArg.bool true) = some (84, []) := rfl
            rw [hbuild] at hba
            have hpi : p = (84, []) := (Option.some.inj hba).symm
            subst hpi
            simp only [parseArgsLoop]
            rw [if_pos trivial]
            simp only [List.nil_append]
            rw [ihh]
            rfl

theorem byteIndexAux_lt {b : Nat} {l : List Nat} {i : Nat} (h : byteIndexAux b l = some i) :
    i < l.length := by
  induction l generalizing i with
  | nil => cases h
  | cons x xs ih =>
    by_cases hx : x = b
    · simp only [byteIndexAux, if_pos hx, Option.some.injEq] at h
      simp [← h]
    · simp only [byteIndexAux, if_neg hx] at h
      cases hj : byteIndexAux b xs with
      | none => rw [hj] at h; cases h
      | some j =>
        rw [hj] at h
        have hji := ih hj
        simp only [Option.map_some', Option.some.injEq] at h
        simp [← h]
        omega

theorem tags_no_zero {args : List OSCArg} {pieces : List (Nat × List Nat)}
    (hp : args.mapM buildArg = some pieces) :
    (0 : Nat) ∉ (44 :: pieces.map Prod.fst) := by
  intro hmem
  rcases List.mem_cons.mp hmem with h44 | hmem2
  · exact absurd h44 (by norm_num)
  · obtain ⟨p, hpmem, hfst⟩ := List.mem_map.mp hmem2
    exact (mapM_pieces_facts hp p hpmem).1 hfst

theorem flatten_mod4 (pieces : List (Nat × List Nat)) (h : ∀ p ∈ pieces, p.2.length % 4 = 0) :
    ((pieces.map Prod.snd).flatten).length % 4 = 0 := by
  induction pieces with
  | nil => simp
  | cons p ps ih =>
    simp only [List.map_cons, List.flatten_cons, List.length_append]
    have h1 := h p (List.mem_cons_self p ps)
    have h2 := ih fun x hx => h x (List.mem_cons_of_mem p hx)
    omega

theorem roundtrip_parse (address : List Nat) (args : List OSCArg)
    (h0 : 0 ∉ address) (hargs : ∀ a ∈ args, validArg a)
    (pieces : List (Nat × List Nat)) (hp : args.mapM buildArg = some pieces) :
    parseOSCMessage (oscString address ++ oscString (44 :: pieces.map Prod.fst) ++
      (pieces.map Prod.snd).flatten) = some ⟨address, args⟩ := by
  have hTz := tags_no_zero hp
  have hsh1 : oscString address ++ oscString (44 :: pieces.map Prod.fst) ++
      (pieces.map Prod.snd).flatten =
      address ++ (0 :: (List.replicate ((4 - (address.length + 1) % 4) % 4) 0 ++
        (oscString (44 :: pieces.map Prod.fst) ++ (pieces.map Prod.snd).flatten))) := by
    rw [oscString_eq address]
    simp [List.append_assoc]
  have hsh2 : oscString address ++ oscString (44 :: pieces.map Prod.fst) ++
      (pieces.map Prod.snd).flatten =
      oscString address ++ ((44 :: pieces.map Prod.fst) ++
        (0 :: (List.replicate ((4 - ((44 :: pieces.map Prod.fst).length + 1) % 4) % 4) 0 ++
          (pieces.map Prod.snd).flatten))) := by
    rw [oscString_eq (44 :: pieces.map Prod.fst)]
    simp [List.append_assoc]
  have hidx : jsIndexOf (oscString address ++ oscString (44 :: pieces.map Prod.fst) ++
      (pieces.map Prod.snd).flatten) 0 0 = ((address.length : Nat) : ℤ) := by
    rw [hsh1]
    have hpre := jsIndexOf_pre [] h0
      (List.replicate ((4 - (address.length + 1) % 4) % 4) 0 ++
        (oscString (44 :: pieces.map Prod.fst) ++ (pieces.map Prod.snd).flatten))
    simpa using hpre
  have hsub : jsSub (oscString address ++ oscString (44 :: pieces.map Prod.fst) ++
      (pieces.map Prod.snd).flatten) 0 ((address.length : Nat) : ℤ) = address := by
    rw [hsh1]
    have hpre := jsSub_pre [] address
      (0 :: (List.replicate ((4 - (address.length + 1) % 4) % 4) 0 ++
        (oscString (44 :: pieces.map Prod.fst) ++ (pieces.map Prod.snd).flatten)))
    simpa using hpre
  have htn1 : (((address.length : Nat) : ℤ) + 1).toNat = address.length + 1 := by omega
  have hal1 : align4 (address.length + 1) = (oscString address).length :=
    (oscString_length address).symm
  have hcomma : (oscString address ++ oscString (44 :: pieces.map Prod.fst) ++
      (pieces.map Prod.snd).flatten)[(oscString address).length]? = some 44 := by
    rw [List.append_assoc]
    have hg := getElem_pre (oscString address)
      (oscString (44 :: pieces.map Prod.fst) ++ (pieces.map Prod.snd).flatten) 0
    rw [Nat.add_zero] at hg
    rw [hg]
    rw [oscString_eq (44 :: pieces.map Prod.fst)]
    simp
  have hidx2 : jsIndexOf (oscString address ++ oscString (44 :: pieces.map Prod.fst) ++
      (pieces.map Prod.snd).flatten) 0 (oscString address).length =
      (((oscString address).length + (pieces.map Prod.fst).length + 1 : Nat) : ℤ) := by
    rw [hsh2]
    have hpre := jsIndexOf_pre (oscString address) hTz
      (List.replicate ((4 - ((44 :: pieces.map Prod.fst).length + 1) % 4) % 4) 0 ++
        (pieces.map Prod.snd).flatten)
    rw [hpre]
    congr 1
  have hsub2 : jsSub (oscString address ++ oscString (44 :: pieces.map Prod.fst) ++
      (pieces.map Prod.snd).flatten) ((oscString address).length : ℤ)
      (((oscString address).length + (pieces.map Prod.fst).length + 1 : Nat) : ℤ) =
      44 :: pieces.map Prod.fst := by
    rw [hsh2]
    have hpre := jsSub_pre (oscString address) (44 :: pieces.map Prod.fst)
      (0 :: (List.replicate ((4 - ((44 :: pieces.map Prod.fst).length + 1) % 4) % 4) 0 ++
        (pieces.map Prod.snd).flatten))
    have hlen : (oscString address).length + (44 :: pieces.map Prod.fst).length =
        (oscString address).length + (pieces.map Prod.fst).length + 1 := by
      simp; omega
    rw [hlen] at hpre
    exact hpre
  have htn2 : ((((oscString address).length + (pieces.map Prod.fst).length + 1 : Nat) : ℤ) +
      1).toNat = (oscString address).length + ((pieces.map Prod.fst).length + 1) + 1 := by omega
  have hal2 : align4 ((oscString address).length + ((pieces.map Prod.fst).length + 1) + 1) =
      (oscString address).length + (oscString (44 :: pieces.map Prod.fst)).length := by
    rw [show (oscString address).length + ((pieces.map Prod.fst).length + 1) + 1 =
      (oscString address).length + ((pieces.map Prod.fst).length + 1 + 1) by omega]
    rw [align4_add_left ((pieces.map Prod.fst).length + 1 + 1) (oscString_mod address)]
    rw [oscString_length (44 :: pieces.map Prod.fst)]
    simp
  have hloop := parseArgs_of_append args pieces hp hargs
    (oscString address ++ oscString (44 :: pieces.map Prod.fst))
    (by rw [List.length_append]
        have ha := oscString_mod address
        have hb := oscString_mod (44 :: pieces.map Prod.fst)
        omega)
  rw [List.append_assoc] at hloop
  rw [List.length_append] at hloop
  simp only [parseOSCMessage]
  rw [hidx, htn1, hal1, if_pos hcomma, hidx2, htn2, hal2, hsub2]
  rw [show (44 :: pieces.map Prod.fst).drop 1 = pieces.map Prod.fst from rfl]
  rw [← List.append_assoc] at hloop
  rw [hloop]
  rw [hsub]
  rfl

/-- C1: for every valid Message (non-empty address without embedded NUL
bytes; every argument an int32-range integer, an exactly
binary32-representable non-integral number, a NUL-free UTF-8 string, or a
boolean), encoding succeeds and decoding the produced bytes yields a Message
with an identical address and an argument list equal element-for-element in
both value and per-position type, floats exact at 32-bit precision. -/
theorem claim1_encode_decode_roundtrip (address : List Nat) (args : List OSCArg)
    (hne : address ≠ []) (h0 : 0 ∉ address) (hargs : ∀ a ∈ args, validArg a) :
    ∃ bs, buildOSCMessage address args = some bs ∧
      parseOSCMessage bs = some ⟨address, args⟩ := by
  obtain ⟨pieces, hp⟩ := mapM_buildArg_of_valid args hargs
  exact ⟨_, buildOSCMessage_eq address hp, roundtrip_parse address args h0 hargs pieces hp⟩

set_option maxRecDepth 40000 in
/-- Witness for C1: the address /a with arguments [4, "hi", true, 4.5]. -/
theorem claim1_witness :
    ∃ bs, buildOSCMessage [47, 97] [.num 4, .str [104, 105], .bool true, .num (mkRat 9 2)] = some bs ∧
      parseOSCMessage bs =
        some ⟨[47, 97], [.num 4, .str [104, 105], .bool true, .num (mkRat 9 2)]⟩ :=
  claim1_encode_decode_roundtrip [47, 97] [.num 4, .str [104, 105], .bool true, .num (mkRat 9 2)]
    (by decide) (by decide) (by decide)

/-- C2: a numeric argument whose value is an exact integer is tagged i (byte
105) and serialized as the 4 big-endian two-complement int32 bytes; any other
numeric value is tagged f (byte 102) and serialized as the 4 big-endian
IEEE-754 binary32 bytes; and the decode loop picks the int32 and binary32
readers purely from those tag bytes. -/
theorem claim2_numeric_classification (q : ℚ) (s E m : Nat) (data rest : List Nat)
    (pos w : Nat) :
    (q.den = 1 → -2 ^ 31 ≤ q.num → q.num < 2 ^ 31 →
      buildArg (.num q) = some (105, int32Bytes q.num)) ∧
    (q.den ≠ 1 → float32Fields q = some (s, E, m) →
      buildArg (.num q) = some (102, word32Bytes (assembleBits s E m))) ∧
    (read4 data pos = some w →
      parseArgsLoop data (105 :: rest) pos =
        (parseArgsLoop data rest (pos + 4)).map (OSCArg.num (int32OfWord w) :: ·)) ∧
    (read4 data pos = some w →
      parseArgsLoop data (102 :: rest) pos =
        (parseArgsLoop data rest (pos + 4)).map (bitsToArg w :: ·)) := by
  refine ⟨?_, ?_, ?_, ?_⟩
  · intro hden hlo hhi
    have hr : -2 ^ 31 ≤ q.num ∧ q.num < 2 ^ 31 := ⟨hlo, hhi⟩
    simp only [buildArg, if_pos hden, if_pos hr]
  · intro hden hf
    simp only [buildArg, if_neg hden, hf, Option.map_some']
  · intro hr
    rw [parseArgsLoop, if_neg (by norm_num), if_pos rfl, hr]
  · intro hr
    rw [parseArgsLoop, if_pos rfl, hr]

set_option maxRecDepth 40000 in
/-- Witness for C2: 4 and 3.0 are tagged i, -0.0 is the integer 0 and also
tagged i, 4.5 is tagged f with the binary32 bytes 0x40900000, and the decoder
takes the int32 branch at tag byte 105. -/
theorem claim2_witness :
    buildArg (.num 4) = some (105, int32Bytes (4 : ℚ).num) ∧
    buildArg (.num 3) = some (105, int32Bytes (3 : ℚ).num) ∧
    buildArg (.num (-0)) = some (105, int32Bytes ((-0 : ℚ)).num) ∧
    buildArg (.num (mkRat 9 2)) = some (102, word32Bytes (assembleBits 0 129 1048576)) ∧
    parseArgsLoop [0, 0, 0, 4] [105] 0 =
      (parseArgsLoop [0, 0, 0, 4] [] 4).map (OSCArg.num (int32OfWord 4) :: ·) :=
  ⟨(claim2_numeric_classification 4 0 0 0 [] [] 0 0).1 (by decide) (by decide) (by decide),
   (claim2_numeric_classification 3 0 0 0 [] [] 0 0).1 (by decide) (by decide) (by decide),
   (claim2_numeric_classification (-0) 0 0 0 [] [] 0 0).1 (by decide) (by decide) (by decide),
   (claim2_numeric_classification (mkRat 9 2) 0 129 1048576 [] [] 0 0).2.1 (by decide) (by decide),
   (claim2_numeric_classification 0 0 0 0 [0, 0, 0, 4] [] 0 4).2.2.1 (by decide)⟩

/-- C3: the byte length of every message accepted by the encoder is a
multiple of 4: the address, the type-tag string and every string argument
are NUL-terminated and zero-padded to 4-byte multiples, int and float
payloads are 4 bytes each, and boolean arguments contribute no payload
bytes. -/
theorem claim3_padding_invariant (address : List Nat) (args : List OSCArg) (bs : List Nat)
    (h : buildOSCMessage address args = some bs) :
    bs.length % 4 = 0 ∧
    (∀ s : List Nat, oscString s =
      s ++ 0 :: List.replicate ((4 - (s.length + 1) % 4) % 4) 0 ∧ (oscString s).length % 4 = 0) ∧
    (∀ n : ℤ, (int32Bytes n).length = 4) ∧
    (∀ w : Nat, (word32Bytes w).length = 4) ∧
    (∀ b : Bool, buildArg (.bool b) = some (if b then 84 else 70, [])) := by
  refine ⟨?_, fun s => ⟨oscString_eq s, oscString_mod s⟩, int32Bytes_length,
    word32Bytes_length, fun b => rfl⟩
  cases hp : args.mapM buildArg with
  | none =>
    unfold buildOSCMessage at h
    rw [hp] at h
    cases h
  | some pieces =>
    have hb := buildOSCMessage_eq address hp
    rw [h] at hb
    have hbs := Option.some.inj hb
    rw [hbs]
    simp only [List.length_append]
    have h1 := oscString_mod address
    have h2 := oscString_mod (44 :: pieces.map Prod.fst)
    have h3 := flatten_mod4 pieces fun p hq => (mapM_pieces_facts hp p hq).2
    omega

/-- Witness for C3 at a concrete message with an int and a string argument. -/
theorem claim3_witness :
    ([47, 97, 0, 0, 44, 105, 115, 0, 0, 0, 0, 4, 104, 0, 0, 0] : List Nat).length % 4 = 0 :=
  (claim3_padding_invariant [47, 97] [.num 4, .str [104]]
    [47, 97, 0, 0, 44, 105, 115, 0, 0, 0, 0, 4, 104, 0, 0, 0] (by decide)).1

/-- C4: when the byte at the 4-aligned cursor right after the address
terminator (position z of the first zero byte) is not the comma 0x2c, decode
returns the bytes before the first zero byte as the address together with an
empty argument list. -/
theorem claim4_defensive_no_tag (data : List Nat) (z : Nat)
    (h1 : jsIndexOf data 0 0 = (z : ℤ))
    (h2 : data[align4 (z + 1)]? ≠ some 44) :
    parseOSCMessage data = some ⟨data.take z, []⟩ := by
  have hzlt : z < data.length := by
    unfold jsIndexOf at h1
    rw [List.drop_zero] at h1
    cases hb : byteIndexAux 0 data with
    | none =>
      rw [hb] at h1
      have h1x : (-1 : ℤ) = ((z : Nat) : ℤ) := h1
      omega
    | some i =>
      rw [hb] at h1
      have h1x : (((0 + i : Nat)) : ℤ) = ((z : Nat) : ℤ) := h1
      have := byteIndexAux_lt hb
      omega
  have hsub : jsSub data 0 ((z : Nat) : ℤ) = data.take z := by
    simp only [jsSub]
    rw [if_neg (by omega), if_neg (by omega)]
    have hl1 : (0 : ℤ) ≤ ((data.length : Nat) : ℤ) := by omega
    have hl2 : ((z : Nat) : ℤ) ≤ ((data.length : Nat) : ℤ) := by omega
    rw [min_eq_left hl1, min_eq_left hl2]
    rw [show ((0 : ℤ)).toNat = 0 from rfl, show ((z : Nat) : ℤ).toNat = z by omega]
    rw [List.drop_zero]
  simp only [parseOSCMessage]
  rw [h1, show (((z : Nat) : ℤ) + 1).toNat = z + 1 by omega, if_neg h2, hsub]

/-- Witness for C4: the buffer 61 00 00 00 has no comma at the aligned
position 4, so decode yields address [97] and no arguments. -/
theorem claim4_witness : parseOSCMessage [97, 0, 0, 0] = some ⟨[97], []⟩ :=
  claim4_defensive_no_tag [97, 0, 0, 0] 1 (by decide) (by decide)

/-! Association-list lemmas for the pending map and the timer set. -/

theorem alistGet_cons {α β : Type} [DecidableEq α] (k a : α) (v : β) (l : List (α × β)) :
    alistGet k ((a, v) :: l) = if a = k then some v else alistGet k l := rfl

theorem alistDel_cons {α β : Type} [DecidableEq α] (k : α) (p : α × β) (l : List (α × β)) :
    alistDel k (p :: l) = if p.1 = k then alistDel k l else p :: alistDel k l := by
  by_cases hk : p.1 = k <;> simp [alistDel, List.filter_cons, hk]

theorem mem_alistDel {α β : Type} [DecidableEq α] {x : α × β} {k : α} {l : List (α × β)} :
    x ∈ alistDel k l ↔ x ∈ l ∧ x.1 ≠ k := by
  simp [alistDel, List.mem_filter]

theorem alistGet_del_self {α β : Type} [DecidableEq α] (k : α) (l : List (α × β)) :
    alistGet k (alistDel k l) = none := by
  induction l with
  | nil => rfl
  | cons p ps ih =>
    rw [alistDel_cons]
    by_cases hk : p.1 = k
    · rw [if_pos hk]; exact ih
    · rw [if_neg hk]
      cases p with
      | mk a v =>
        rw [alistGet_cons, if_neg hk]
        exact ih

theorem alistGet_mem {α β : Type} [DecidableEq α] {k : α} {v : β} {l : List (α × β)}
    (h : alistGet k l = some v) : (k, v) ∈ l := by
  induction l with
  | nil => cases h
  | cons p ps ih =>
    cases p with
    | mk a w =>
      rw [alistGet_cons] at h
      by_cases hk : a = k
      · rw [if_pos hk] at h
        subst hk
        rw [Option.some.inj h]
        exact List.mem_cons_self _ _
      · rw [if_neg hk] at h
        exact List.mem_cons_of_mem _ (ih h)

theorem nodup_key_unique {α β : Type} [DecidableEq α] {l : List (α × β)}
    (h : (l.map Prod.fst).Nodup) {k : α} {v1 v2 : β}
    (h1 : (k, v1) ∈ l) (h2 : (k, v2) ∈ l) : v1 = v2 := by
  induction l with
  | nil => cases h1
  | cons p ps ih =>
    simp only [List.map_cons, List.nodup_cons] at h
    rcases List.mem_cons.mp h1 with he1 | h1t
    · rcases List.mem_cons.mp h2 with he2 | h2t
      · rw [← he1] at he2
        exact (Prod.mk.injEq _ _ _ _ ▸ he2.symm).2
      · exfalso
        apply h.1
        have : k = p.1 := by rw [← he1]
        rw [this] at h2t
        exact List.mem_map.mpr ⟨_, h2t, rfl⟩
    · rcases List.mem_cons.mp h2 with he2 | h2t
      · exfalso
        apply h.1
        have : k = p.1 := by rw [← he2]
        rw [this] at h1t
        exact List.mem_map.mpr ⟨_, h1t, rfl⟩
      · exact ih h.2 h1t h2t

theorem alistDel_fst_sublist {α β : Type} [DecidableEq α] (k : α) (l : List (α × β)) :
    ((alistDel k l).map Prod.fst).Sublist (l.map Prod.fst) :=
  (List.filter_sublist l).map Prod.fst

/-- Effect of a connected query on the correlator state. -/
theorem queryOp_state (st : CorrState) (address : List Nat) (args : List OSCArg)
    (h : st.connected = true) :
    (queryOp st address args).1.connected = true ∧
    (queryOp st address args).1.pending = (address, st.nextId) :: alistDel address st.pending ∧
    (queryOp st address args).1.timers = (st.nextId, address) :: st.timers ∧
    (queryOp st address args).1.nextId = st.nextId + 1 ∧
    (queryOp st address args).1.settled = st.settled ∧
    (queryOp st address args).1.events = st.events := by
  unfold queryOp
  rw [h]
  cases hb : buildOSCMessage address args <;> simp

/-- C5: when the correlator has no bound socket, send and query both fail
with the NotConnected error, the state is unchanged, no datagram is handed
to the socket, and no pending request or timer is registered. -/
theorem claim5_not_connected (st : CorrState) (address : List Nat) (args : List OSCArg)
    (h : st.connected = false) :
    sendOp st address args = (st, .notConnected) ∧
    queryOp st address args = (st, .notConnected) := by
  unfold sendOp queryOp
  rw [h]
  exact ⟨rfl, rfl⟩

/-- Witness for C5 on a closed client. -/
theorem claim5_witness :
    sendOp (closeOp initC) [47] [] = (closeOp initC, .notConnected) ∧
    queryOp (closeOp initC) [47] [] = (closeOp initC, .notConnected) :=
  claim5_not_connected (closeOp initC) [47] [] rfl

/-- C7: for every successfully decoded inbound datagram the handler emits the
message event exactly once; if a pending request keyed by the decoded address
exists, its timer is cancelled, it is removed from the pending map and it is
resolved with the message; with no matching request the dispatch is a total
function (nothing throws) and only the event is observable. -/
theorem claim7_dispatch (st : CorrState) (data : List Nat) (msg : OSCMessage)
    (h : parseOSCMessage data = some msg) :
    (deliverOp st data).events = msg :: st.events ∧
    (∀ qid, alistGet msg.address st.pending = some qid →
      deliverOp st data = { st with
        events := msg :: st.events
        timers := alistDel qid st.timers
        pending := alistDel msg.address st.pending
        settled := (qid, .resolved msg) :: st.settled }) ∧
    (alistGet msg.address st.pending = none →
      deliverOp st data = { st with events := msg :: st.events }) := by
  unfold deliverOp
  rw [h]
  refine ⟨?_, ?_, ?_⟩
  · cases hg : alistGet msg.address st.pending <;> simp [hg]
  · intro qid hg
    simp [hg]
  · intro hg
    simp [hg]

/-- Witness for C7: an unsolicited datagram on a fresh client emits one
event and changes nothing else. -/
theorem claim7_witness :
    (deliverOp initC [47, 97, 0, 0, 44, 0, 0, 0]).events =
      OSCMessage.mk [47, 97] [] :: initC.events ∧
    deliverOp initC [47, 97, 0, 0, 44, 0, 0, 0] =
      { initC with events := OSCMessage.mk [47, 97] [] :: initC.events } :=
  ⟨(claim7_dispatch initC [47, 97, 0, 0, 44, 0, 0, 0] ⟨[47, 97], []⟩ (by decide)).1,
   (claim7_dispatch initC [47, 97, 0, 0, 44, 0, 0, 0] ⟨[47, 97], []⟩ (by decide)).2.2 rfl⟩

/-- C8: ping issues the fixed /live/test query with no arguments, and the
boolean it produces is true exactly when that query resolved with a reply
whose first argument is the literal string ok; a timeout rejection and a
synchronous failure (no outcome) both yield false instead of propagating. -/
theorem claim8_ping (st : CorrState) (h : st.connected = true) (msg : OSCMessage) :
    pingQuery st = queryOp st pingAddress [] ∧
    (pingQuery st).2 = .started st.nextId ∧
    (pingQuery st).1.sent =
      [47, 108, 105, 118, 101, 47, 116, 101, 115, 116, 0, 0, 44, 0, 0, 0] :: st.sent ∧
    (pingDecision (some (.resolved msg)) = true ↔
      msg.args.head? = some (.str okBytes)) ∧
    pingDecision (some .timedOut) = false ∧
    pingDecision none = false := by
  have hb : buildOSCMessage pingAddress [] =
      some [47, 108, 105, 118, 101, 47, 116, 101, 115, 116, 0, 0, 44, 0, 0, 0] := by decide
  refine ⟨rfl, ?_, ?_, ?_, rfl, rfl⟩
  · unfold pingQuery queryOp
    rw [h, hb]
    simp
  · unfold pingQuery queryOp
    rw [h, hb]
    simp
  · unfold pingDecision
    cases hh : msg.args.head? with
    | none => simp [hh]
    | some a => cases a <;> simp [hh, okBytes]

/-- Witness for C8 on a fresh connected client with an ok reply. -/
theorem claim8_witness :
    (pingQuery initC).2 = .started initC.nextId ∧
    pingDecision (some (.resolved ⟨pingAddress, [.str okBytes]⟩)) = true ∧
    pingDecision (some .timedOut) = false :=
  ⟨(claim8_ping initC rfl ⟨pingAddress, [.str okBytes]⟩).2.1,
   ((claim8_ping initC rfl ⟨pingAddress, [.str okBytes]⟩).2.2.2.1).mpr rfl,
   (claim8_ping initC rfl ⟨pingAddress, [.str okBytes]⟩).2.2.2.2.1⟩

/-- Firing an armed timer, as a record update. -/
theorem fireOp_eq (st : CorrState) (qid : Nat) (address : List Nat)
    (h : alistGet qid st.timers = some address) :
    fireOp st qid = { st with
      timers := alistDel qid st.timers
      pending := alistDel address st.pending
      settled := (qid, .timedOut) :: st.settled } := by
  unfold fireOp
  rw [h]

/-- C9: close releases the socket and leaves the pending map, the armed
timers, the settled list and the sent log untouched: no outstanding query is
rejected or resolved by close, and an outstanding query still fails with the
Timeout rejection when its own timer later fires. -/
theorem claim9_close_frame (st : CorrState) (qid : Nat) (address : List Nat)
    (h : alistGet qid st.timers = some address) :
    (closeOp st).connected = false ∧
    (closeOp st).pending = st.pending ∧
    (closeOp st).timers = st.timers ∧
    (closeOp st).settled = st.settled ∧
    (closeOp st).sent = st.sent ∧
    (fireOp (closeOp st) qid).settled = (qid, .timedOut) :: st.settled := by
  refine ⟨rfl, rfl, rfl, rfl, rfl, ?_⟩
  unfold fireOp closeOp
  simp [h]

/-- Witness for C9: closing after one query keeps its pending entry, and the
later timer firing rejects it with Timeout. -/
theorem claim9_witness :
    (closeOp (queryOp initC [47] []).1).pending = (queryOp initC [47] []).1.pending ∧
    (fireOp (closeOp (queryOp initC [47] []).1) 0).settled =
      (0, QueryOutcome.timedOut) :: (queryOp initC [47] []).1.settled :=
  ⟨(claim9_close_frame (queryOp initC [47] []).1 0 [47] (by decide)).2.1,
   (claim9_close_frame (queryOp initC [47] []).1 0 [47] (by decide)).2.2.2.2.2⟩

/-- C10: with query A pending on an address, a second query B to the same
address overwrites the pending entry without cancelling the timer of A; when
the timer of A fires it deletes the entry of B from the pending map and
rejects A with Timeout, so an inbound reply for the address arriving
afterwards settles no pending request, and B also fails with Timeout when
its own timer fires even though its deadline had not been reached. -/
theorem claim10_same_address_race (st : CorrState) (address : List Nat)
    (args1 args2 : List OSCArg) (h : st.connected = true) :
    alistGet address
      (fireOp (queryOp (queryOp st address args1).1 address args2).1 st.nextId).pending = none ∧
    (fireOp (queryOp (queryOp st address args1).1 address args2).1 st.nextId).settled =
      (st.nextId, .timedOut) :: (queryOp (queryOp st address args1).1 address args2).1.settled ∧
    (∀ data msg, parseOSCMessage data = some msg → msg.address = address →
      (deliverOp (fireOp (queryOp (queryOp st address args1).1 address args2).1 st.nextId)
          data).settled =
        (fireOp (queryOp (queryOp st address args1).1 address args2).1 st.nextId).settled) ∧
    (fireOp (fireOp (queryOp (queryOp st address args1).1 address args2).1 st.nextId)
        (st.nextId + 1)).settled =
      (st.nextId + 1, .timedOut) ::
        (fireOp (queryOp (queryOp st address args1).1 address args2).1 st.nextId).settled := by
  obtain ⟨hc1, hp1, ht1, hn1, hs1, he1⟩ := queryOp_state st address args1 h
  obtain ⟨hc2, hp2, ht2, hn2, hs2, he2⟩ :=
    queryOp_state (queryOp st address args1).1 address args2 hc1
  rw [hn1] at hp2 ht2
  rw [ht1] at ht2
  rw [hp1] at hp2
  -- the timer of A is still armed behind the timer of B
  have hgetA : alistGet st.nextId
      (queryOp (queryOp st address args1).1 address args2).1.timers = some address := by
    rw [ht2, alistGet_cons, if_neg (by omega), alistGet_cons, if_pos rfl]
  have hfire := fireOp_eq (queryOp (queryOp st address args1).1 address args2).1
    st.nextId address hgetA
  have hpend3 : alistGet address
      (fireOp (queryOp (queryOp st address args1).1 address args2).1 st.nextId).pending =
        none := by
    rw [hfire]
    exact alistGet_del_self address _
  refine ⟨hpend3, by rw [hfire], ?_, ?_⟩
  · intro data msg hparse haddr
    unfold deliverOp
    simp only [hparse]
    rw [haddr, hpend3]
  · have hgetB : alistGet (st.nextId + 1)
        (fireOp (queryOp (queryOp st address args1).1 address args2).1 st.nextId).timers =
          some address := by
      rw [hfire]
      show alistGet (st.nextId + 1) (alistDel st.nextId
        (queryOp (queryOp st address args1).1 address args2).1.timers) = some address
      rw [ht2, alistDel_cons]
      rw [if_neg (by simp)]
      rw [alistGet_cons, if_pos rfl]
    rw [fireOp_eq _ (st.nextId + 1) address hgetB]

/-- Witness for C10: two queries to /x then the first timer firing; the
reply datagram for /x settles nothing and the second timer rejects query 1. -/
theorem claim10_witness :
    alistGet [47, 120]
      (fireOp (queryOp (queryOp initC [47, 120] []).1 [47, 120] []).1 initC.nextId).pending =
        none ∧
    (fireOp (fireOp (queryOp (queryOp initC [47, 120] []).1 [47, 120] []).1 initC.nextId)
        (initC.nextId + 1)).settled =
      (initC.nextId + 1, .timedOut) ::
        (fireOp (queryOp (queryOp initC [47, 120] []).1 [47, 120] []).1 initC.nextId).settled :=
  ⟨(claim10_same_address_race initC [47, 120] [] [] rfl).1,
   (claim10_same_address_race initC [47, 120] [] [] rfl).2.2.2⟩

/-! The correlator invariant and its preservation. -/

theorem corrInv_of_fields {st st2 : CorrState} (h : CorrInv st)
    (hp : st2.pending = st.pending) (ht : st2.timers = st.timers)
    (hs : st2.settled = st.settled) (hn : st2.nextId = st.nextId) : CorrInv st2 := by
  unfold CorrInv settledIds at h ⊢
  rw [hp, ht, hs, hn]
  exact h

theorem deliverOp_match (st : CorrState) (data : List Nat) (msg : OSCMessage) (qid : Nat)
    (hparse : parseOSCMessage data = some msg)
    (hg : alistGet msg.address st.pending = some qid) :
    deliverOp st data = { st with
      events := msg :: st.events
      timers := alistDel qid st.timers
      pending := alistDel msg.address st.pending
      settled := (qid, .resolved msg) :: st.settled } := by
  unfold deliverOp
  simp [hparse, hg]

theorem deliverOp_nomatch (st : CorrState) (data : List Nat) (msg : OSCMessage)
    (hparse : parseOSCMessage data = some msg)
    (hg : alistGet msg.address st.pending = none) :
    deliverOp st data = { st with events := msg :: st.events } := by
  unfold deliverOp
  simp [hparse, hg]

theorem deliverOp_err (st : CorrState) (data : List Nat)
    (hparse : parseOSCMessage data = none) :
    deliverOp st data = { st with errorEvents := st.errorEvents + 1 } := by
  unfold deliverOp
  simp [hparse]

theorem corrInv_send (st : CorrState) (h : CorrInv st) (address : List Nat)
    (args : List OSCArg) : CorrInv (sendOp st address args).1 := by
  unfold sendOp
  by_cases hc : st.connected = true
  · rw [if_pos hc]
    cases hb : buildOSCMessage address args <;>
      exact corrInv_of_fields h rfl rfl rfl rfl
  · rw [if_neg hc]
    exact corrInv_of_fields h rfl rfl rfl rfl

theorem corrInv_query (st : CorrState) (h : CorrInv st) (address : List Nat)
    (args : List OSCArg) : CorrInv (queryOp st address args).1 := by
  by_cases hc : st.connected = true
  swap
  · unfold queryOp
    rw [if_neg hc]
    exact corrInv_of_fields h rfl rfl rfl rfl
  obtain ⟨hcc, hp, ht, hn, hs, he⟩ := queryOp_state st address args hc
  obtain ⟨inv1, inv2, inv3, inv4, inv5, inv6, inv7⟩ := h
  unfold CorrInv settledIds
  rw [hp, ht, hn, hs]
  refine ⟨?_, ?_, ?_, inv4, ?_, ?_, ?_⟩
  · intro p hmem
    rcases List.mem_cons.mp hmem with rfl | hmem2
    · exact List.mem_cons_self _ _
    · have hx := mem_alistDel.mp hmem2
      exact List.mem_cons_of_mem _ (inv1 p hx.1)
  · simp only [List.map_cons, List.nodup_cons]
    refine ⟨?_, inv2⟩
    intro hmem
    obtain ⟨t, htmem, hteq⟩ := List.mem_map.mp hmem
    have := inv6 t htmem
    omega
  · simp only [List.map_cons, List.nodup_cons]
    refine ⟨?_, (alistDel_fst_sublist address st.pending).nodup inv3⟩
    intro hmem
    obtain ⟨p, hpmem, hpeq⟩ := List.mem_map.mp hmem
    exact (mem_alistDel.mp hpmem).2 hpeq
  · intro q hq a hmem
    rcases List.mem_cons.mp hmem with heq | hmem2
    · have h7 := inv7 q hq
      have hq2 : q = st.nextId := congrArg Prod.fst heq
      omega
    · exact inv5 q hq a hmem2
  · intro t htmem
    rcases List.mem_cons.mp htmem with rfl | hmem2
    · simp
    · have := inv6 t hmem2
      omega
  · intro q hq
    have := inv7 q hq
    omega

theorem corrInv_deliver (st : CorrState) (h : CorrInv st) (data : List Nat) :
    CorrInv (deliverOp st data) := by
  cases hparse : parseOSCMessage data with
  | none =>
    rw [deliverOp_err st data hparse]
    exact corrInv_of_fields h rfl rfl rfl rfl
  | some msg =>
    cases hg : alistGet msg.address st.pending with
    | none =>
      rw [deliverOp_nomatch st data msg hparse hg]
      exact corrInv_of_fields h rfl rfl rfl rfl
    | some qid =>
      rw [deliverOp_match st data msg qid hparse hg]
      obtain ⟨inv1, inv2, inv3, inv4, inv5, inv6, inv7⟩ := h
      have hmem_t : (qid, msg.address) ∈ st.timers := inv1 _ (alistGet_mem hg)
      have hqid_lt : qid < st.nextId := inv6 _ hmem_t
      have hq_not : qid ∉ settledIds st := fun hq => inv5 qid hq msg.address hmem_t
      unfold CorrInv settledIds
      dsimp only
      refine ⟨?_, ?_, ?_, ?_, ?_, ?_, ?_⟩
      · intro p hmem
        have hx := mem_alistDel.mp hmem
        refine mem_alistDel.mpr ⟨inv1 p hx.1, ?_⟩
        intro hpq
        have hpq2 : p.2 = qid := hpq
        have hmem2 : (qid, p.1) ∈ st.timers := by rw [← hpq2]; exact inv1 p hx.1
        have := nodup_key_unique inv2 hmem2 hmem_t
        exact hx.2 this
      · exact (alistDel_fst_sublist qid st.timers).nodup inv2
      · exact (alistDel_fst_sublist msg.address st.pending).nodup inv3
      · exact List.nodup_cons.mpr ⟨hq_not, inv4⟩
      · intro q hq a hmem
        have hx := mem_alistDel.mp hmem
        rcases List.mem_cons.mp hq with rfl | hq2
        · exact hx.2 rfl
        · exact inv5 q hq2 a hx.1
      · intro t htmem
        exact inv6 t (mem_alistDel.mp htmem).1
      · intro q hq
        rcases List.mem_cons.mp hq with rfl | hq2
        · exact hqid_lt
        · exact inv7 q hq2

theorem corrInv_fire (st : CorrState) (h : CorrInv st) (qid : Nat) :
    CorrInv (fireOp st qid) := by
  cases hg : alistGet qid st.timers with
  | none =>
    unfold fireOp
    rw [hg]
    exact h
  | some address =>
    rw [fireOp_eq st qid address hg]
    obtain ⟨inv1, inv2, inv3, inv4, inv5, inv6, inv7⟩ := h
    have hmem_t : (qid, address) ∈ st.timers := alistGet_mem hg
    have hqid_lt : qid < st.nextId := inv6 _ hmem_t
    have hq_not : qid ∉ settledIds st := fun hq => inv5 qid hq address hmem_t
    unfold CorrInv settledIds
    dsimp only
    refine ⟨?_, ?_, ?_, ?_, ?_, ?_, ?_⟩
    · intro p hmem
      have hx := mem_alistDel.mp hmem
      refine mem_alistDel.mpr ⟨inv1 p hx.1, ?_⟩
      intro hpq
      have hpq2 : p.2 = qid := hpq
      have hmem2 : (qid, p.1) ∈ st.timers := by rw [← hpq2]; exact inv1 p hx.1
      have := nodup_key_unique inv2 hmem2 hmem_t
      exact hx.2 this
    · exact (alistDel_fst_sublist qid st.timers).nodup inv2
    · exact (alistDel_fst_sublist address st.pending).nodup inv3
    · exact List.nodup_cons.mpr ⟨hq_not, inv4⟩
    · intro q hq a hmem
      have hx := mem_alistDel.mp hmem
      rcases List.mem_cons.mp hq with rfl | hq2
      · exact hx.2 rfl
      · exact inv5 q hq2 a hx.1
    · intro t htmem
      exact inv6 t (mem_alistDel.mp htmem).1
    · intro q hq
      rcases List.mem_cons.mp hq with rfl | hq2
      · exact hqid_lt
      · exact inv7 q hq2

theorem corrInv_step (st : CorrState) (h : CorrInv st) (s : CStep) :
    CorrInv (stepC st s) := by
  cases s with
  | query a as => exact corrInv_query st h a as
  | send a as => exact corrInv_send st h a as
  | deliver d => exact corrInv_deliver st h d
  | fire q => exact corrInv_fire st h q
  | close => exact corrInv_of_fields h rfl rfl rfl rfl

theorem corrInv_initC : CorrInv initC := by
  unfold CorrInv settledIds initC
  refine ⟨?_, ?_, ?_, ?_, ?_, ?_, ?_⟩ <;> simp

theorem corrInv_run (st : CorrState) (h : CorrInv st) (tr : List CStep) :
    CorrInv (runC st tr) := by
  induction tr generalizing st with
  | nil => exact h
  | cons s rest ih => exact ih (stepC st s) (corrInv_step st h s)

/-- C6: along every turn sequence from the connected initial state each query
promise is settled at most once; an armed timer that fires settles its own
query with the Timeout rejection and removes the pending entry at its
address, and a delivered reply that matches a pending entry settles exactly
that query and removes the entry, so per query a single outcome is delivered:
the decoded reply if it arrives before the deadline, the Timeout error
otherwise. -/
theorem claim6_timeout_single_outcome (tr : List CStep) (qid : Nat) (address : List Nat)
    (data : List Nat) (msg : OSCMessage) :
    (settledIds (runC initC tr)).Nodup ∧
    (alistGet qid (runC initC tr).timers = some address →
      (fireOp (runC initC tr) qid).settled =
        (qid, .timedOut) :: (runC initC tr).settled ∧
      alistGet address (fireOp (runC initC tr) qid).pending = none) ∧
    (parseOSCMessage data = some msg →
      alistGet msg.address (runC initC tr).pending = some qid →
      (deliverOp (runC initC tr) data).settled =
        (qid, .resolved msg) :: (runC initC tr).settled ∧
      alistGet msg.address (deliverOp (runC initC tr) data).pending = none) := by
  refine ⟨(corrInv_run initC corrInv_initC tr).2.2.2.1, ?_, ?_⟩
  · intro hg
    rw [fireOp_eq _ qid address hg]
    exact ⟨rfl, alistGet_del_self address _⟩
  · intro hparse hg
    rw [deliverOp_match _ data msg qid hparse hg]
    exact ⟨rfl, alistGet_del_self msg.address _⟩

/-- Witness for C6: one query to /x on a fresh client; its timer firing
rejects it with Timeout, and the settled ids stay duplicate-free. -/
theorem claim6_witness :
    (settledIds (runC initC [CStep.query [47] []])).Nodup ∧
    (fireOp (runC initC [CStep.query [47] []]) 0).settled =
      (0, QueryOutcome.timedOut) :: (runC initC [CStep.query [47] []]).settled :=
  ⟨(claim6_timeout_single_outcome [CStep.query [47] []] 0 [47] [] ⟨[], []⟩).1,
   ((claim6_timeout_single_outcome [CStep.query [47] []] 0 [47] [] ⟨[], []⟩).2.1
     (by decide)).1⟩

end AbleNode
